import Mathlib

/-!
Shallow embedding of the syntax-tree editing and patch-generation engine of
`crates/ra_assists/src/ast_editor.rs` and `crates/ra_syntax/src/ast/edit.rs`,
together with the tree primitives (`algo::diff`, `algo::insert_children`,
`algo::replace_children`, `algo::replace_descendants`, `ra_fmt::leading_indent`
and the trivia token factory) which are not part of the sampled sources and are
therefore modelled from the specification.
-/

set_option maxHeartbeats 1000000

/-- Characters of a rendered text fragment. -/
abbrev Chars := List Char

/-- Syntax kinds used by the editing operations (a closed selection of
`ra_syntax::SyntaxKind` covering the kinds the sampled code inspects). -/
inductive SynKind where
  | lCurly
  | rCurly
  | whitespace
  | comma
  | attr
  | comment
  | recordField
  | recordFieldList
  | ident
  | colon
  | typeBoundList
  | semi
  | block
  | fnDef
  | typeAliasDef
  | constDef
  | itemList
  | typeParam
  | implBlock
  | other
deriving DecidableEq, Repr

/-- A syntax element: token (leaf, literal text) or node (kind with ordered
children, tokens and nodes interleaved), mirroring `ra_syntax::SyntaxElement`. -/
inductive Element where
  | token (kind : SynKind) (text : Chars)
  | node (kind : SynKind) (children : List Element)

/-- Kind tag of an element. -/
def Element.kind : Element → SynKind
  | .token k _ => k
  | .node k _ => k

mutual

/-- Full-text rendering of an element (`SyntaxNode::to_string`). -/
def Element.render : Element → Chars
  | .token _ t => t
  | .node _ cs => renderList cs

/-- Rendering of a list of children, concatenated in order. -/
def renderList : List Element → Chars
  | [] => []
  | c :: cs => c.render ++ renderList cs

end

mutual

/-- Boolean structural equality on elements (used for the identity fast path of
the diff; identical elements in particular are structurally equal). -/
def Element.beq : Element → Element → Bool
  | .token k t, .token k2 t2 => k == k2 && t == t2
  | .node k cs, .node k2 cs2 => k == k2 && elistBeq cs cs2
  | _, _ => false

/-- Boolean structural equality on child lists. -/
def elistBeq : List Element → List Element → Bool
  | [], [] => true
  | a :: as2, b :: bs => Element.beq a b && elistBeq as2 bs
  | _, _ => false

end

mutual

theorem Element.beq_refl : (a : Element) → Element.beq a a = true
  | .token k t => by simp [Element.beq]
  | .node k cs => by simp [Element.beq, elistBeq_refl cs]

theorem elistBeq_refl : (cs : List Element) → elistBeq cs cs = true
  | [] => by simp [elistBeq]
  | c :: cs => by simp [elistBeq, Element.beq_refl c, elistBeq_refl cs]

end

mutual

theorem Element.beq_sound : (a b : Element) → Element.beq a b = true → a = b
  | .token k t, .token k2 t2 => by
      simp [Element.beq]
  | .node k cs, .node k2 cs2 => by
      simp [Element.beq]
      intro h1 h2
      exact ⟨h1, elistBeq_sound cs cs2 h2⟩
  | .token _ _, .node _ _ => by simp [Element.beq]
  | .node _ _, .token _ _ => by simp [Element.beq]

theorem elistBeq_sound : (as2 bs : List Element) → elistBeq as2 bs = true → as2 = bs
  | [], [] => by simp
  | a :: as2, b :: bs => by
      simp [elistBeq]
      intro h1 h2
      exact ⟨Element.beq_sound a b h1, elistBeq_sound as2 bs h2⟩
  | [], _ :: _ => by simp [elistBeq]
  | _ :: _, [] => by simp [elistBeq]

end

instance : DecidableEq Element := fun a b =>
  decidable_of_iff (Element.beq a b = true)
    ⟨Element.beq_sound a b, fun h => h ▸ Element.beq_refl a⟩

/-- A single text replacement: replace the characters of the baseline text in
the half-open range `[start, stop)` by `repl` (one `builder.replace` call). -/
structure Edit where
  start : Nat
  stop : Nat
  repl : Chars
deriving DecidableEq

/-- Pairwise alignment of the kind sequences of two child lists (equal length
and equal kinds position by position), used by the diff to decide whether to
recurse child by child. -/
def kindsAligned : List Element → List Element → Bool
  | [], [] => true
  | b :: bs, c :: cs => b.kind == c.kind && kindsAligned bs cs
  | _, _ => false

mutual

/-- Modelled from the spec: `ra_syntax::algo::diff` (not among the sampled
sources), per section 4.2. Lock-step walk of baseline `b` and current `c`;
`off` is the byte offset of `b` in the baseline text. Identical elements
contribute nothing; differing leaf tokens emit one replacement; nodes whose
child-kind sequences align recurse child by child; irreconcilable divergence
emits a single replacement covering the baseline element's entire range. -/
def diff (off : Nat) (b c : Element) : List Edit :=
  if Element.beq b c then []
  else
    match b, c with
    | .token _ tb, .token _ tc =>
        if tb == tc then [] else [⟨off, off + tb.length, tc⟩]
    | .node kb cb, .node kc cc =>
        if kb == kc && kindsAligned cb cc then diffChildren off cb cc
        else [⟨off, off + (Element.node kb cb).render.length, (Element.node kc cc).render⟩]
    | b, c => [⟨off, off + b.render.length, c.render⟩]

/-- Diff of two aligned child lists, accumulating the baseline offset. -/
def diffChildren (off : Nat) : List Element → List Element → List Edit
  | b :: bs, c :: cs => diff off b c ++ diffChildren (off + b.render.length) bs cs
  | _, _ => []

end

/-- The characters of `s` in the half-open index range `[a, b)`. -/
def extract (s : Chars) (a b : Nat) : Chars := (s.take b).drop a

/-- Apply a list of edits (absolute ranges into `s`, in ascending disjoint
order) to `s`, starting from position `pos`; the text before `pos` has already
been produced. -/
def applyFrom (s : Chars) : Nat → List Edit → Chars
  | pos, [] => s.drop pos
  | pos, e :: es => extract s pos e.start ++ e.repl ++ applyFrom s e.stop es

/-- Every edit of the list lies within `[lo, hi]` and has `start ≤ stop`. -/
def editsBounded (lo hi : Nat) (es : List Edit) : Prop :=
  ∀ e ∈ es, lo ≤ e.start ∧ e.start ≤ e.stop ∧ e.stop ≤ hi

/-- Consecutive edits are ordered and disjoint: each ends no later than the
next begins. -/
def editsChained (es : List Edit) : Prop :=
  List.Chain' (fun a b => a.stop ≤ b.start) es

@[simp]
theorem render_token (k : SynKind) (t : Chars) : (Element.token k t).render = t := by
  simp [Element.render]

@[simp]
theorem render_node (k : SynKind) (cs : List Element) :
    (Element.node k cs).render = renderList cs := by
  simp [Element.render]

@[simp]
theorem renderList_nil : renderList [] = [] := by
  simp [renderList]

@[simp]
theorem renderList_cons (c : Element) (cs : List Element) :
    renderList (c :: cs) = c.render ++ renderList cs := by
  simp [renderList]

theorem extract_self (s : Chars) (a : Nat) : extract s a a = [] := by
  apply List.drop_eq_nil_of_le
  exact List.length_take_le a s

theorem drop_split (s : Chars) (a m : Nat) (h : a ≤ m) :
    s.drop a = extract s a m ++ s.drop m := by
  unfold extract
  conv_lhs => rw [← List.take_append_drop m s]
  rw [List.drop_append_eq_append_drop]
  rcases le_or_lt m s.length with hm | hm
  · have hl : (List.take m s).length = m := by simp; omega
    rw [hl, Nat.sub_eq_zero_of_le h, List.drop_zero]
  · have hd : s.drop m = [] := List.drop_eq_nil_of_le (by omega)
    rw [hd]
    simp

theorem extract_split (s : Chars) (a b c : Nat) (h1 : a ≤ b) (h2 : b ≤ c) :
    extract s a c = extract s a b ++ extract s b c := by
  unfold extract
  have hc : s.take c = s.take b ++ (s.take c).drop b := by
    conv_lhs => rw [← List.take_append_drop b (s.take c)]
    rw [List.take_take, Nat.min_eq_left h2]
  conv_lhs => rw [hc]
  rw [List.drop_append_eq_append_drop]
  rcases le_or_lt a s.length with ha | ha
  · have hl : a ≤ (s.take b).length := by simp; omega
    rw [Nat.sub_eq_zero_of_le hl, List.drop_zero]
  · have h3 : (s.take c).drop b = [] := by
      apply List.drop_eq_nil_of_le
      simp
      omega
    rw [h3]
    simp

theorem extract_length (s : Chars) (a b : Nat) (h2 : b ≤ s.length) :
    (extract s a b).length = b - a := by
  simp [extract]
  omega

theorem extract_full (s : Chars) : extract s 0 s.length = s := by
  simp [extract]

theorem extract_append_split (base u v : Chars) (off : Nat)
    (hlen : off + u.length + v.length ≤ base.length)
    (h : extract base off (off + u.length + v.length) = u ++ v) :
    extract base off (off + u.length) = u ∧
    extract base (off + u.length) (off + u.length + v.length) = v := by
  have hsplit := extract_split base off (off + u.length) (off + u.length + v.length)
    (by omega) (by omega)
  rw [h] at hsplit
  have l1 : (extract base off (off + u.length)).length = u.length := by
    rw [extract_length base off (off + u.length) (by omega)]
    omega
  have := List.append_inj hsplit.symm l1
  exact ⟨this.1, this.2⟩

theorem applyFrom_skip (base : Chars) (ofs m : Nat) (es : List Edit)
    (h : ofs ≤ m) (hes : ∀ e ∈ es, m ≤ e.start) :
    applyFrom base ofs es = extract base ofs m ++ applyFrom base m es := by
  cases es with
  | nil =>
      simp only [applyFrom]
      exact drop_split base ofs m h
  | cons e es =>
      simp only [applyFrom]
      have he := hes e (by simp)
      rw [extract_split base ofs m e.start h he]
      simp [List.append_assoc]

theorem edits_nil_ok (lo hi : Nat) :
    editsBounded lo hi ([] : List Edit) ∧ editsChained ([] : List Edit) := by
  constructor
  · intro e he
    exact absurd he (List.not_mem_nil e)
  · exact List.chain'_nil

theorem edits_singleton_ok (lo hi : Nat) (r : Chars) (h : lo ≤ hi) :
    editsBounded lo hi [⟨lo, hi, r⟩] ∧ editsChained [⟨lo, hi, r⟩] := by
  constructor
  · intro e he
    rw [List.mem_singleton] at he
    subst he
    exact ⟨le_refl _, h, le_refl _⟩
  · exact List.chain'_singleton _

theorem editsBounded_append (lo mid hi : Nat) (es1 es2 : List Edit)
    (h1 : editsBounded lo mid es1) (h2 : editsBounded mid hi es2)
    (hlm : lo ≤ mid) (hmh : mid ≤ hi) :
    editsBounded lo hi (es1 ++ es2) := by
  intro e he
  rcases List.mem_append.mp he with h | h
  · have hb := h1 e h
    exact ⟨hb.1, hb.2.1, by omega⟩
  · have hb := h2 e h
    exact ⟨by omega, hb.2.1, hb.2.2⟩

theorem editsChained_append (mid : Nat) (es1 es2 : List Edit)
    (h1 : editsChained es1) (h2 : editsChained es2)
    (b1 : ∀ e ∈ es1, e.stop ≤ mid) (b2 : ∀ e ∈ es2, mid ≤ e.start) :
    editsChained (es1 ++ es2) := by
  apply List.Chain'.append h1 h2
  intro x hx y hy
  have hx2 := b1 x (List.mem_of_getLast?_eq_some hx)
  have hy2 := b2 y (List.mem_of_mem_head? hy)
  omega

mutual

theorem diff_bounded : (off : Nat) → (b c : Element) →
    editsBounded off (off + b.render.length) (diff off b c)
      ∧ editsChained (diff off b c)
  | off, .token kb tb, .token kc tc => by
      rw [diff]
      by_cases hbeq : Element.beq (.token kb tb) (.token kc tc) = true
      · rw [if_pos hbeq]
        exact edits_nil_ok _ _
      · rw [if_neg hbeq]
        by_cases ht : (tb == tc) = true
        · rw [if_pos ht]
          exact edits_nil_ok _ _
        · rw [if_neg ht]
          simp only [render_token]
          exact edits_singleton_ok off (off + tb.length) tc (Nat.le_add_right _ _)
  | off, .token kb tb, .node kc cc => by
      rw [diff]
      · by_cases hbeq : Element.beq (.token kb tb) (.node kc cc) = true
        · rw [if_pos hbeq]
          exact edits_nil_ok _ _
        · rw [if_neg hbeq]
          simp only [render_token]
          exact edits_singleton_ok off (off + tb.length) _ (Nat.le_add_right _ _)
      · intro k t k2 t2 h1 h2
        exact Element.noConfusion h2
      · intro k cs k2 cs2 h1 h2
        exact Element.noConfusion h1
  | off, .node kb cb, .token kc tc => by
      rw [diff]
      · by_cases hbeq : Element.beq (.node kb cb) (.token kc tc) = true
        · rw [if_pos hbeq]
          exact edits_nil_ok _ _
        · rw [if_neg hbeq]
          exact edits_singleton_ok off (off + _) _ (Nat.le_add_right _ _)
      · intro k t k2 t2 h1 h2
        exact Element.noConfusion h1
      · intro k cs k2 cs2 h1 h2
        exact Element.noConfusion h2
  | off, .node kb cb, .node kc cc => by
      rw [diff]
      by_cases hbeq : Element.beq (.node kb cb) (.node kc cc) = true
      · rw [if_pos hbeq]
        exact edits_nil_ok _ _
      · rw [if_neg hbeq]
        by_cases hk : (kb == kc && kindsAligned cb cc) = true
        · rw [if_pos hk]
          have h := diffChildren_bounded off cb cc
          simpa [render_node] using h
        · rw [if_neg hk]
          exact edits_singleton_ok off (off + _) _ (Nat.le_add_right _ _)

theorem diffChildren_bounded : (off : Nat) → (bs cs : List Element) →
    editsBounded off (off + (renderList bs).length) (diffChildren off bs cs)
      ∧ editsChained (diffChildren off bs cs)
  | off, [], cs => by
      rw [diffChildren]
      · exact edits_nil_ok _ _
      · intro b bs c cs2 h1 h2
        exact List.noConfusion h1
  | off, b :: bs, [] => by
      rw [diffChildren]
      · exact edits_nil_ok _ _
      · intro b2 bs2 c cs2 h1 h2
        exact List.noConfusion h2
  | off, b :: bs, c :: cs => by
      rw [diffChildren]
      have h1 := diff_bounded off b c
      have h2 := diffChildren_bounded (off + b.render.length) bs cs
      constructor
      · intro e he
        rcases List.mem_append.mp he with h | h
        · have hb := h1.1 e h
          refine ⟨hb.1, hb.2.1, ?_⟩
          simp only [renderList_cons, List.length_append]
          omega
        · have hb := h2.1 e h
          refine ⟨by omega, hb.2.1, ?_⟩
          simp only [renderList_cons, List.length_append]
          omega
      · apply editsChained_append (off + b.render.length) _ _ h1.2 h2.2
        · intro e he
          exact (h1.1 e he).2.2
        · intro e he
          exact (h2.1 e he).1

end

theorem kindsAligned_cons (b c : Element) (bs cs : List Element)
    (h : kindsAligned (b :: bs) (c :: cs) = true) : kindsAligned bs cs = true := by
  rw [kindsAligned] at h
  exact (Bool.and_eq_true_iff.mp h).2


theorem beq_token_node (kb : SynKind) (tb : Chars) (kc : SynKind) (cc : List Element) :
    Element.beq (.token kb tb) (.node kc cc) = false := by
  rw [Element.beq]
  · intro k t k2 t2 h1 h2
    exact Element.noConfusion h2
  · intro k cs k2 cs2 h1 h2
    exact Element.noConfusion h1

theorem beq_node_token (kb : SynKind) (cb : List Element) (kc : SynKind) (tc : Chars) :
    Element.beq (.node kb cb) (.token kc tc) = false := by
  rw [Element.beq]
  · intro k t k2 t2 h1 h2
    exact Element.noConfusion h1
  · intro k cs k2 cs2 h1 h2
    exact Element.noConfusion h2

mutual

theorem diff_apply : (off : Nat) → (b c : Element) → (base : Chars) → (rest : List Edit) →
    extract base off (off + b.render.length) = b.render →
    off + b.render.length ≤ base.length →
    (∀ e ∈ rest, off + b.render.length ≤ e.start) →
    applyFrom base off (diff off b c ++ rest)
      = c.render ++ applyFrom base (off + b.render.length) rest
  | off, .token kb tb, .token kc tc, base, rest, hw, hlen, hrest => by
      rw [diff]
      by_cases hbeq : Element.beq (.token kb tb) (.token kc tc) = true
      · rw [if_pos hbeq]
        have hbc := Element.beq_sound _ _ hbeq
        rw [List.nil_append]
        rw [applyFrom_skip base off (off + (Element.token kb tb).render.length) rest
          (Nat.le_add_right _ _) hrest]
        rw [hw, ← hbc]
      · rw [if_neg hbeq]
        by_cases ht : (tb == tc) = true
        · rw [if_pos ht]
          have htt : tb = tc := eq_of_beq ht
          subst htt
          rw [List.nil_append]
          rw [applyFrom_skip base off (off + (Element.token kb tb).render.length) rest
            (Nat.le_add_right _ _) hrest]
          rw [hw]
          simp only [render_token]
        · rw [if_neg ht]
          rw [List.cons_append, applyFrom]
          rw [extract_self]
          simp
  | off, .token kb tb, .node kc cc, base, rest, hw, hlen, hrest => by
      rw [diff]
      · rw [beq_token_node, if_neg Bool.false_ne_true]
        rw [List.cons_append, applyFrom]
        rw [extract_self]
        simp
      · intro k t k2 t2 h1 h2
        exact Element.noConfusion h2
      · intro k cs k2 cs2 h1 h2
        exact Element.noConfusion h1
  | off, .node kb cb, .token kc tc, base, rest, hw, hlen, hrest => by
      rw [diff]
      · rw [beq_node_token, if_neg Bool.false_ne_true]
        rw [List.cons_append, applyFrom]
        rw [extract_self]
        simp
      · intro k t k2 t2 h1 h2
        exact Element.noConfusion h1
      · intro k cs k2 cs2 h1 h2
        exact Element.noConfusion h2
  | off, .node kb cb, .node kc cc, base, rest, hw, hlen, hrest => by
      rw [diff]
      by_cases hbeq : Element.beq (.node kb cb) (.node kc cc) = true
      · rw [if_pos hbeq]
        have hbc := Element.beq_sound _ _ hbeq
        rw [List.nil_append]
        rw [applyFrom_skip base off (off + (Element.node kb cb).render.length) rest
          (Nat.le_add_right _ _) hrest]
        rw [hw, ← hbc]
      · rw [if_neg hbeq]
        by_cases hk : (kb == kc && kindsAligned cb cc) = true
        · rw [if_pos hk]
          have halign : kindsAligned cb cc = true := (Bool.and_eq_true_iff.mp hk).2
          simp only [render_node] at hw hlen hrest ⊢
          exact diffChildren_apply off cb cc base rest halign hw hlen hrest
        · rw [if_neg hk]
          rw [List.cons_append, applyFrom]
          rw [extract_self]
          simp

theorem diffChildren_apply : (off : Nat) → (bs cs : List Element) → (base : Chars) →
    (rest : List Edit) →
    kindsAligned bs cs = true →
    extract base off (off + (renderList bs).length) = renderList bs →
    off + (renderList bs).length ≤ base.length →
    (∀ e ∈ rest, off + (renderList bs).length ≤ e.start) →
    applyFrom base off (diffChildren off bs cs ++ rest)
      = renderList cs ++ applyFrom base (off + (renderList bs).length) rest
  | off, [], [], base, rest, halign, hw, hlen, hrest => by
      rw [diffChildren]
      · simp only [renderList_nil, List.length_nil, Nat.add_zero] at hrest ⊢
        rw [List.nil_append, List.nil_append]
      · intro b bs c cs h1 h2
        exact List.noConfusion h1
  | off, [], c :: cs, base, rest, halign, hw, hlen, hrest => by
      simp [kindsAligned] at halign
  | off, b :: bs, [], base, rest, halign, hw, hlen, hrest => by
      simp [kindsAligned] at halign
  | off, b :: bs, c :: cs, base, rest, halign, hw, hlen, hrest => by
      rw [diffChildren]
      simp only [renderList_cons, List.length_append, ← Nat.add_assoc] at hw hlen hrest ⊢
      have hsplit := extract_append_split base b.render (renderList bs) off (by omega) hw
      have hbound := diffChildren_bounded (off + b.render.length) bs cs
      rw [List.append_assoc]
      rw [diff_apply off b c base (diffChildren (off + b.render.length) bs cs ++ rest)
        hsplit.1 (by omega) ?hr]
      case hr =>
        intro e he
        rcases List.mem_append.mp he with h | h
        · exact (hbound.1 e h).1
        · have := hrest e h
          omega
      rw [diffChildren_apply (off + b.render.length) bs cs base rest
        (kindsAligned_cons b c bs cs halign) hsplit.2 (by omega) ?hr2]
      case hr2 =>
        intro e he
        have := hrest e he
        omega
      rw [List.append_assoc]

end

/-- Insert positions (`ra_syntax::InsertPosition`); anchors are identified by
their index among the current children of the node being edited, the shallow
counterpart of element identity for elements that are children of the node. -/
inductive InsertPos where
  | first
  | last
  | before (anchor : Nat)
  | after (anchor : Nat)
deriving DecidableEq

/-- Failures of the structural edit primitives (spec section 7). -/
inductive EditError where
  | invalidAnchor
  | invalidRange
deriving DecidableEq

/-- Modelled from the spec: `ra_syntax::algo::insert_children` (not among the
sampled sources), section 4.1: insert the ordered sequence `ins` among `root`'s
direct children at `pos`; fail with `invalidAnchor` when the anchor is not
currently a child of `root`. -/
def insertChildren (root : Element) (pos : InsertPos) (ins : List Element) :
    Except EditError Element :=
  match root with
  | .token _ _ => .error .invalidAnchor
  | .node k cs =>
      match pos with
      | .first => .ok (.node k (ins ++ cs))
      | .last => .ok (.node k (cs ++ ins))
      | .before i =>
          if i < cs.length then .ok (.node k (cs.take i ++ ins ++ cs.drop i))
          else .error .invalidAnchor
      | .after i =>
          if i < cs.length then .ok (.node k (cs.take (i + 1) ++ ins ++ cs.drop (i + 1)))
          else .error .invalidAnchor

/-- Modelled from the spec: `ra_syntax::algo::replace_children` (not among the
sampled sources), section 4.1: delete the inclusive run of direct children from
index `i` to index `j` and splice `ins` in its place; fail with `invalidRange`
when the boundaries are not children of `root` in document order. -/
def replaceChildren (root : Element) (i j : Nat) (ins : List Element) :
    Except EditError Element :=
  match root with
  | .token _ _ => .error .invalidRange
  | .node k cs =>
      if i ≤ j ∧ j < cs.length then .ok (.node k (cs.take i ++ ins ++ cs.drop (j + 1)))
      else .error .invalidRange

instance : BEq Element := ⟨Element.beq⟩

mutual

/-- Modelled from the spec: `ra_syntax::algo::replace_descendants` (not among
the sampled sources), section 4.1: every sub-element matching a key of the
substitution map is replaced by the associated value; other nodes are rebuilt
with substituted children. -/
def substDescendants (map : List (Element × Element)) : Element → Element
  | .token k t =>
      match map.find? (fun p => p.1 == Element.token k t) with
      | some p => p.2
      | none => .token k t
  | .node k cs =>
      match map.find? (fun p => p.1 == Element.node k cs) with
      | some p => p.2
      | none => .node k (substDescendantsList map cs)

/-- Substitution mapped over a child list. -/
def substDescendantsList (map : List (Element × Element)) : List Element → List Element
  | [] => []
  | c :: cs => substDescendants map c :: substDescendantsList map cs

end

/-- Modelled from the spec: the trivia factory `ast::make::tokens::WsBuilder`
(not among the sampled sources): a whitespace token with the given literal
text. -/
def wsTok (t : Chars) : Element := .token .whitespace t

/-- Modelled from the spec: `ast::make::tokens::single_space`. -/
def singleSpace : Element := wsTok [' ']

/-- Modelled from the spec: `ast::make::tokens::comma`. -/
def commaTok : Element := .token .comma [',']

/-- The characters of a whitespace text after its last newline. -/
def afterLastNewline (t : Chars) : Chars :=
  (t.reverse.takeWhile (fun ch => ch != '\n')).reverse

/-- Modelled from the spec: the backwards scan of `ra_fmt::leading_indent`
(not among the sampled sources), section 4.4, over the reversed prefix of
siblings: the nearest whitespace containing a line break answers with the text
after its last newline; any other element containing a line break ends the
scan with no answer; when the scan leaves the subtree, `ctx` (the enclosing
container's own leading indentation, determined by the original text outside
this subtree) answers. -/
def leadingIndentBack (ctx : Option Chars) : List Element → Option Chars
  | [] => ctx
  | e :: rev =>
      match e with
      | .token .whitespace t =>
          if t.contains '\n' then some (afterLastNewline t)
          else leadingIndentBack ctx rev
      | e =>
          if e.render.contains '\n' then none
          else leadingIndentBack ctx rev

/-- Modelled from the spec: `ra_fmt::leading_indent` applied to the child at
index `i` of the child list `cs` (the scan starts at the child and moves left
through its preceding siblings, then leaves the subtree into `ctx`). -/
def leadingIndentOfChild (ctx : Option Chars) (cs : List Element) (i : Nat) : Option Chars :=
  leadingIndentBack ctx (cs.take i).reverse

/-- Direct children of an element (`children_with_tokens`). -/
def Element.children : Element → List Element
  | .token _ _ => []
  | .node _ cs => cs

/-- Index of the first child satisfying `p` (`children_with_tokens().find`). -/
def firstIdx (p : Element → Bool) : List Element → Option Nat
  | [] => none
  | c :: cs => if p c then some 0 else (firstIdx p cs).map (· + 1)

/-- Index of the last child satisfying `p` (`fields().last()` and
`impl_items().last()` name the last child of the matching kind). -/
def lastIdx (p : Element → Bool) : List Element → Option Nat
  | [] => none
  | c :: cs =>
      match lastIdx p cs with
      | some i => some (i + 1)
      | none => if p c then some 0 else none

/-- Index of the first element with property `p` at index at least `i`: the
`siblings_with_tokens(Direction::Next)` scan, which starts at the anchor
itself. -/
def firstIdxFrom (p : Element → Bool) (cs : List Element) (i : Nat) : Option Nat :=
  (firstIdx p (cs.drop i)).map (· + i)

/-- The child index of the first `{` token (`AstEditor::l_curly`). -/
def lCurlyIdx (cs : List Element) : Option Nat :=
  firstIdx (fun c => c.kind == SynKind.lCurly) cs

/-- Child of kind `RECORD_FIELD` (`RecordFieldList::fields`). -/
def isField (c : Element) : Bool := c.kind == SynKind.recordField

/-- Child of kind comma (`T![,]`). -/
def isComma (c : Element) : Bool := c.kind == SynKind.comma

/-- Child that is an impl item (`ItemList::impl_items`: a function, type alias
or const definition). -/
def isImplItem (c : Element) : Bool :=
  c.kind == SynKind.fnDef || c.kind == SynKind.typeAliasDef || c.kind == SynKind.constDef

/-- Child of kind `ATTR` or `COMMENT`. -/
def isAttrOrComment (c : Element) : Bool :=
  c.kind == SynKind.attr || c.kind == SynKind.comment

/-- Child of kind `WHITESPACE`. -/
def isWs (c : Element) : Bool := c.kind == SynKind.whitespace

/-- Child of kind colon (`TypeParam::colon_token`). -/
def isColon (c : Element) : Bool := c.kind == SynKind.colon

/-- Child of kind `TYPE_BOUND_LIST` (`TypeBoundsOwner::type_bound_list`). -/
def isBoundList (c : Element) : Bool := c.kind == SynKind.typeBoundList

/-- Child of kind `BLOCK` (`FnDef::body`). -/
def isBlock (c : Element) : Bool := c.kind == SynKind.block

/-- Child of kind semicolon (`FnDef::semicolon_token`). -/
def isSemi (c : Element) : Bool := c.kind == SynKind.semi

/-- The editing session of `ast_editor.rs`: `original_ast` is the baseline
frozen at construction and `ast` the current tree. `ctxIndent` models the
leading indentation of the edited node within the original file, the part of
the `ra_fmt::leading_indent` scan that lies outside the node's own subtree
(modelled from the spec, section 4.4); it is fixed per session because edits
never move the node inside its file. -/
structure AstEditor where
  original_ast : Element
  ast : Element
  ctxIndent : Option Chars

/-- `AstEditor::new`: the clone of the input becomes the baseline, current
starts equal to it. -/
def AstEditor.new (node : Element) (ctxIndent : Option Chars) : AstEditor :=
  { original_ast := node, ast := node, ctxIndent := ctxIndent }

/-- `AstEditor::into_text_edit`: one `builder.replace(from.text_range(),
to.to_string())` per diff entry of baseline against current. -/
def AstEditor.intoTextEdit (e : AstEditor) : List Edit :=
  diff 0 e.original_ast e.ast

/-- The session-level edit step (spec section 4.3): replace `ast` by the
primitive's result, leaving it unchanged when the primitive fails. -/
def AstEditor.setAst (e : AstEditor) (r : Except EditError Element) : AstEditor :=
  match r with
  | .ok newAst => { e with ast := newAst }
  | .error _ => e

/-- Insert position for `insert_field`, with record-field anchors given by
their child index. -/
inductive FieldPos where
  | first
  | last
  | before (anchor : Nat)
  | after (anchor : Nat)
deriving DecidableEq

/-- The whitespace separator `insert_field` builds: a multiline list gets
`"\n" ++ indent ++ "    "` (`WsBuilder`), a single-line list a single space. -/
def fieldSpace (e : AstEditor) : Element :=
  if e.ast.render.contains '\n' then wsTok ('\n' :: (e.ctxIndent.getD [] ++ [' ', ' ', ' ', ' ']))
  else singleSpace

/-- `AstEditor::<ast::RecordFieldList>::insert_field`: the payload starts as
`[space, field, comma]`; `after_field!` prepends a fresh comma when the anchor
field has none following, `Last` on a single-line list pops the trailing
comma, and a missing `{` aborts the operation unchanged. -/
def AstEditor.insertField (e : AstEditor) (position : FieldPos) (field : Element) : AstEditor :=
  let cs := e.ast.children
  let is_multiline := e.ast.render.contains '\n'
  let to_insert0 := [fieldSpace e, field, commaTok]
  let resolved : Option (InsertPos × List Element) :=
    match position with
    | .first =>
        match lCurlyIdx cs with
        | some i => some (.after i, to_insert0)
        | none => none
    | .last =>
        let to_insert1 := if is_multiline then to_insert0 else to_insert0.dropLast
        match lastIdx isField cs with
        | some i =>
            match firstIdxFrom isComma cs i with
            | some j => some (.after j, to_insert1)
            | none => some (.after i, commaTok :: to_insert1)
        | none =>
            match lCurlyIdx cs with
            | some i => some (.after i, to_insert1)
            | none => none
    | .before anchor => some (.before anchor, to_insert0)
    | .after anchor =>
        match firstIdxFrom isComma cs anchor with
        | some j => some (.after j, to_insert0)
        | none => some (.after anchor, commaTok :: to_insert0)
  match resolved with
  | none => e
  | some (pos, ins) => e.setAst (insertChildren e.ast pos ins)

/-- `AstEditor::<ast::RecordFieldList>::append_field`. -/
def AstEditor.appendField (e : AstEditor) (field : Element) : AstEditor :=
  e.insertField .last field

/-- `AstEditor::do_make_multiline`: no-op without a `{` child or when `{` is
the last child or already followed by a whitespace containing a newline;
otherwise a `"\n" ++ indent` whitespace is inserted after `{`, replacing an
existing newline-free whitespace. -/
def AstEditor.doMakeMultiline (e : AstEditor) : AstEditor :=
  let cs := e.ast.children
  match lCurlyIdx cs with
  | none => e
  | some i =>
      match cs[i + 1]? with
      | none => e
      | some sib =>
          let ws := wsTok ('\n' :: e.ctxIndent.getD [])
          match sib with
          | .token .whitespace t =>
              if t.contains '\n' then e
              else e.setAst (replaceChildren e.ast (i + 1) (i + 1) [ws])
          | _ => e.setAst (insertChildren e.ast (.after i) [ws])

/-- `AstEditor::<ast::ItemList>::append_item`: the new item goes after the
last impl item with that item's leading indentation, or after `{` with the
container's indentation plus one level; a `"\n" ++ indent` whitespace precedes
the item. -/
def AstEditor.appendItem (e : AstEditor) (item : Element) : AstEditor :=
  let cs := e.ast.children
  let resolved : Option (Chars × InsertPos) :=
    match lastIdx isImplItem cs with
    | some i => some ((leadingIndentOfChild e.ctxIndent cs i).getD [], .after i)
    | none =>
        match lCurlyIdx cs with
        | some i => some ([' ', ' ', ' ', ' '] ++ e.ctxIndent.getD [], .after i)
        | none => none
  match resolved with
  | none => e
  | some (indent, pos) => e.setAst (insertChildren e.ast pos [wsTok ('\n' :: indent), item])

/-- `AstEditor::<ast::ItemList>::append_items`: force a line break first when
the container renders on one line, then append each item in order. -/
def AstEditor.appendItems (e : AstEditor) (items : List Element) : AstEditor :=
  let e1 := if e.ast.render.contains '\n' then e else e.doMakeMultiline
  items.foldl AstEditor.appendItem e1

/-- End of the deleted run of one `strip_attrs_and_docs` loop iteration: the
attribute or comment child itself, or the single immediately following
whitespace token when one is present. -/
def stripEnd (cs : List Element) (i : Nat) : Nat :=
  match cs[i + 1]? with
  | some el => if isWs el then i + 1 else i
  | none => i

theorem firstIdx_lt_length (p : Element → Bool) :
    (cs : List Element) → (i : Nat) → firstIdx p cs = some i → i < cs.length
  | [], i, h => by
      rw [firstIdx] at h
      exact Option.noConfusion h
  | c :: cs, i, h => by
      rw [firstIdx] at h
      by_cases hp : p c
      · rw [if_pos hp] at h
        cases h
        simp
      · rw [if_neg hp] at h
        rcases Option.map_eq_some'.mp h with ⟨j, hj, hji⟩
        have := firstIdx_lt_length p cs j hj
        subst hji
        simp
        omega

theorem stripEnd_bounds (cs : List Element) (i : Nat) (h : i < cs.length) :
    i ≤ stripEnd cs i ∧ stripEnd cs i < cs.length := by
  rw [stripEnd]
  split
  next el hel =>
    have hlt : i + 1 < cs.length := by
      by_contra hge
      rw [List.getElem?_eq_none (by omega)] at hel
      exact Option.noConfusion hel
    by_cases hw : isWs el
    · rw [if_pos hw]
      exact ⟨Nat.le_succ _, hlt⟩
    · rw [if_neg hw]
      exact ⟨le_refl _, h⟩
  next hel =>
    exact ⟨le_refl _, h⟩

/-- The `strip_attrs_and_docs` loop over the child list: repeatedly delete the
first attribute-or-comment child together with a single immediately following
whitespace token, until none remains. -/
def stripAll (cs : List Element) : List Element :=
  match h : firstIdx isAttrOrComment cs with
  | none => cs
  | some i => stripAll (cs.take i ++ cs.drop (stripEnd cs i + 1))
termination_by cs.length
decreasing_by
  have h1 := firstIdx_lt_length isAttrOrComment cs i h
  have h2 := stripEnd_bounds cs i h1
  simp only [List.length_append, List.length_take, List.length_drop]
  omega

/-- `AstEditor::<ast::ImplItem>::strip_attrs_and_docs`. -/
def AstEditor.stripAttrsAndDocs (e : AstEditor) : AstEditor :=
  match e.ast with
  | .token _ _ => e
  | .node k cs => { e with ast := .node k (stripAll cs) }

/-- `AstEditor::<ast::TypeParam>::remove_bounds`: delete from the colon token
to the type-bound list (or the colon alone when no bound list follows) in one
splice; a type parameter without a colon is left unchanged. -/
def AstEditor.removeBounds (e : AstEditor) : AstEditor :=
  let cs := e.ast.children
  match firstIdx isColon cs with
  | none => e
  | some i =>
      let j :=
        match firstIdx isBoundList cs with
        | some j => j
        | none => i
      e.setAst (replaceChildren e.ast i j [])

/-- `AstEditor::replace_descendants`. -/
def AstEditor.replaceDescendants (e : AstEditor) (map : List (Element × Element)) : AstEditor :=
  { e with ast := substDescendants map e.ast }

/-- One public session edit operation of `ast_editor.rs`. -/
inductive EditOp where
  | insertField (position : FieldPos) (field : Element)
  | appendField (field : Element)
  | appendItem (item : Element)
  | appendItems (items : List Element)
  | stripAttrsAndDocs
  | removeBounds
  | replaceDescendants (map : List (Element × Element))

/-- Dispatch of one edit operation on a session. -/
def applyOp (e : AstEditor) : EditOp → AstEditor
  | .insertField pos f => e.insertField pos f
  | .appendField f => e.appendField f
  | .appendItem it => e.appendItem it
  | .appendItems its => e.appendItems its
  | .stripAttrsAndDocs => e.stripAttrsAndDocs
  | .removeBounds => e.removeBounds
  | .replaceDescendants m => e.replaceDescendants m

/-- A whole sequence of edit calls on a session. -/
def applyOps (e : AstEditor) (ops : List EditOp) : AstEditor :=
  ops.foldl applyOp e

/-- `ast::FnDef::with_body` of `crates/ra_syntax/src/ast/edit.rs`: replace an
existing body in place; otherwise replace a trailing semicolon by a space and
the body; otherwise append a space and the body after the last child. The
primitives cannot fail here because the anchors are found among the children;
the error arms keep the function total. -/
def withBody (f : Element) (body : Element) : Element :=
  let cs := f.children
  match firstIdx isBlock cs with
  | some i =>
      match replaceChildren f i i [body] with
      | .ok n => n
      | .error _ => f
  | none =>
      match firstIdx isSemi cs with
      | some i =>
          match replaceChildren f i i [singleSpace, body] with
          | .ok n => n
          | .error _ => f
      | none =>
          match insertChildren f .last [singleSpace, body] with
          | .ok n => n
          | .error _ => f

theorem diff_self (off : Nat) (b : Element) : diff off b b = [] := by
  rw [diff.eq_def]
  rw [if_pos (Element.beq_refl b)]

theorem setAst_frame (e : AstEditor) (r : Except EditError Element) :
    (e.setAst r).original_ast = e.original_ast ∧ (e.setAst r).ctxIndent = e.ctxIndent := by
  cases r with
  | ok n => exact ⟨rfl, rfl⟩
  | error err => exact ⟨rfl, rfl⟩

theorem insertField_frame (e : AstEditor) (pos : FieldPos) (f : Element) :
    (e.insertField pos f).original_ast = e.original_ast ∧
      (e.insertField pos f).ctxIndent = e.ctxIndent := by
  rw [AstEditor.insertField.eq_def]
  dsimp only
  split
  · exact ⟨rfl, rfl⟩
  · exact setAst_frame _ _

theorem doMakeMultiline_frame (e : AstEditor) :
    (e.doMakeMultiline).original_ast = e.original_ast ∧
      (e.doMakeMultiline).ctxIndent = e.ctxIndent := by
  rw [AstEditor.doMakeMultiline]
  split
  · exact ⟨rfl, rfl⟩
  · split
    · exact ⟨rfl, rfl⟩
    · split
      · split
        · exact ⟨rfl, rfl⟩
        · exact setAst_frame _ _
      · exact setAst_frame _ _

theorem appendItem_frame (e : AstEditor) (item : Element) :
    (e.appendItem item).original_ast = e.original_ast ∧
      (e.appendItem item).ctxIndent = e.ctxIndent := by
  rw [AstEditor.appendItem]
  split
  · exact ⟨rfl, rfl⟩
  · exact setAst_frame _ _

theorem foldl_appendItem_frame : (its : List Element) → (e : AstEditor) →
    (its.foldl AstEditor.appendItem e).original_ast = e.original_ast ∧
      (its.foldl AstEditor.appendItem e).ctxIndent = e.ctxIndent
  | [], e => ⟨rfl, rfl⟩
  | it :: its, e => by
      rw [List.foldl_cons]
      have h1 := appendItem_frame e it
      have h2 := foldl_appendItem_frame its (e.appendItem it)
      exact ⟨h2.1.trans h1.1, h2.2.trans h1.2⟩

theorem appendItems_frame (e : AstEditor) (items : List Element) :
    (e.appendItems items).original_ast = e.original_ast ∧
      (e.appendItems items).ctxIndent = e.ctxIndent := by
  rw [AstEditor.appendItems]
  by_cases hc : e.ast.render.contains '\n' = true
  · rw [if_pos hc]
    exact foldl_appendItem_frame items e
  · rw [if_neg hc]
    have h1 := doMakeMultiline_frame e
    have h2 := foldl_appendItem_frame items e.doMakeMultiline
    exact ⟨h2.1.trans h1.1, h2.2.trans h1.2⟩

theorem stripAttrsAndDocs_frame (e : AstEditor) :
    (e.stripAttrsAndDocs).original_ast = e.original_ast ∧
      (e.stripAttrsAndDocs).ctxIndent = e.ctxIndent := by
  rw [AstEditor.stripAttrsAndDocs.eq_def]
  split
  · exact ⟨rfl, rfl⟩
  · exact ⟨rfl, rfl⟩

theorem removeBounds_frame (e : AstEditor) :
    (e.removeBounds).original_ast = e.original_ast ∧
      (e.removeBounds).ctxIndent = e.ctxIndent := by
  rw [AstEditor.removeBounds.eq_def]
  dsimp only
  split
  · exact ⟨rfl, rfl⟩
  · exact setAst_frame _ _

theorem replaceDescendants_frame (e : AstEditor) (map : List (Element × Element)) :
    (e.replaceDescendants map).original_ast = e.original_ast ∧
      (e.replaceDescendants map).ctxIndent = e.ctxIndent :=
  ⟨rfl, rfl⟩

theorem applyOp_frame (e : AstEditor) (op : EditOp) :
    (applyOp e op).original_ast = e.original_ast ∧
      (applyOp e op).ctxIndent = e.ctxIndent := by
  cases op with
  | insertField pos f => exact insertField_frame e pos f
  | appendField f => exact insertField_frame e .last f
  | appendItem it => exact appendItem_frame e it
  | appendItems its => exact appendItems_frame e its
  | stripAttrsAndDocs => exact stripAttrsAndDocs_frame e
  | removeBounds => exact removeBounds_frame e
  | replaceDescendants m => exact replaceDescendants_frame e m

theorem applyOps_frame : (ops : List EditOp) → (e : AstEditor) →
    (applyOps e ops).original_ast = e.original_ast ∧
      (applyOps e ops).ctxIndent = e.ctxIndent
  | [], e => ⟨rfl, rfl⟩
  | op :: ops, e => by
      rw [applyOps, List.foldl_cons]
      have h1 := applyOp_frame e op
      have h2 := applyOps_frame ops (applyOp e op)
      rw [applyOps] at h2
      exact ⟨h2.1.trans h1.1, h2.2.trans h1.2⟩

theorem setAst_error (e : AstEditor) (err : EditError) : e.setAst (.error err) = e := rfl

theorem insertField_before_eq (e : AstEditor) (anchor : Nat) (f : Element) :
    e.insertField (.before anchor) f =
      e.setAst (insertChildren e.ast (.before anchor) [fieldSpace e, f, commaTok]) := rfl

theorem insertChildren_before_invalid (root : Element) (i : Nat) (ins : List Element)
    (h : root.children.length ≤ i) :
    insertChildren root (.before i) ins = .error .invalidAnchor := by
  cases root with
  | token k t => rw [insertChildren]
  | node k cs =>
      rw [Element.children] at h
      rw [insertChildren]
      rw [if_neg (by omega)]

theorem insertChildren_after_invalid (root : Element) (i : Nat) (ins : List Element)
    (h : root.children.length ≤ i) :
    insertChildren root (.after i) ins = .error .invalidAnchor := by
  cases root with
  | token k t => rw [insertChildren]
  | node k cs =>
      rw [Element.children] at h
      rw [insertChildren]
      rw [if_neg (by omega)]

/-- C3: constructing a session from any node and finalizing immediately with
zero intervening edits produces an empty patch: `into_text_edit` adds no
replacement, because the diff of a tree against itself is empty. -/
theorem finalize_without_edits_is_empty (n : Element) (ctx : Option Chars) :
    (AstEditor.new n ctx).intoTextEdit = [] := by
  rw [AstEditor.intoTextEdit]
  exact diff_self 0 n

/-- C2: over any sequence of edit operations, the baseline `original_ast`
frozen at construction still denotes exactly the node captured when the
session was created; only the `ast` field is replaced by edits (the modelled
context indentation is likewise untouched, so `ast` is the only field any edit
rewrites). -/
theorem original_ast_frozen (n : Element) (ctx : Option Chars) (ops : List EditOp) :
    (applyOps (AstEditor.new n ctx) ops).original_ast = n ∧
      (applyOps (AstEditor.new n ctx) ops).ctxIndent = ctx :=
  applyOps_frame ops (AstEditor.new n ctx)

/-- C9: an insertion whose position references an anchor that is not currently
a child of the edited node aborts with the recoverable `invalidAnchor` error
value (for both anchored positions), and at the session level the edit leaves
the session — in particular its current tree — completely unchanged, so the
caller may retry. -/
theorem invalid_anchor_aborts (e : AstEditor) (i : Nat) (f : Element) (ins : List Element)
    (h : e.ast.children.length ≤ i) :
    insertChildren e.ast (.before i) ins = .error .invalidAnchor ∧
    insertChildren e.ast (.after i) ins = .error .invalidAnchor ∧
    e.insertField (.before i) f = e := by
  refine ⟨insertChildren_before_invalid _ _ _ h, insertChildren_after_invalid _ _ _ h, ?_⟩
  rw [insertField_before_eq]
  rw [insertChildren_before_invalid _ _ _ h]
  rw [setAst_error]

/-- Witness for C9 at a concrete session: a two-child record field list and
the out-of-range anchor index 5. -/
theorem invalid_anchor_aborts_witness :
    (AstEditor.new (.node .recordFieldList [.token .lCurly ['{'], .token .rCurly ['}']])
        none).ast.children.length ≤ 5 ∧
    (AstEditor.new (.node .recordFieldList [.token .lCurly ['{'], .token .rCurly ['}']])
        none).insertField (.before 5) (.node .recordField [.token .ident ['a']]) =
      AstEditor.new (.node .recordFieldList [.token .lCurly ['{'], .token .rCurly ['}']]) none :=
  ⟨by decide,
   (invalid_anchor_aborts
      (AstEditor.new (.node .recordFieldList [.token .lCurly ['{'], .token .rCurly ['}']]) none)
      5 (.node .recordField [.token .ident ['a']]) [] (by decide)).2.2⟩

theorem chained_head_le : (a : Edit) → (es : List Edit) → editsChained (a :: es) →
    (∀ e ∈ es, e.start ≤ e.stop) → ∀ b ∈ es, a.stop ≤ b.start
  | a, [], _, _, b, hb => absurd hb (List.not_mem_nil b)
  | a, c :: es, hch, hwf, b, hb => by
      rw [editsChained, List.chain'_cons] at hch
      rcases List.mem_cons.mp hb with hbc | hb2
      · subst hbc
        exact hch.1
      · have hc := chained_head_le c es hch.2 (fun e he => hwf e (by simp [he])) b hb2
        have hcw := hwf c (by simp)
        have h1 := hch.1
        omega

theorem chained_pairwise : (es : List Edit) → editsChained es →
    (∀ e ∈ es, e.start ≤ e.stop) →
    List.Pairwise (fun x y => x.stop ≤ y.start) es
  | [], _, _ => List.Pairwise.nil
  | a :: es, hch, hwf => by
      refine List.Pairwise.cons ?_
        (chained_pairwise es hch.tail (fun e he => hwf e (by simp [he])))
      intro b hb
      exact chained_head_le a es hch (fun e he => hwf e (by simp [he])) b hb

theorem diff_apply_closed (b c : Element) :
    applyFrom b.render 0 (diff 0 b c) = c.render := by
  have h := diff_apply 0 b c b.render [] ?hw (by simp) ?hr
  case hw =>
    rw [Nat.zero_add]
    exact extract_full _
  case hr =>
    intro e he
    exact absurd he (List.not_mem_nil e)
  rw [List.append_nil] at h
  rw [h, applyFrom, Nat.zero_add, List.drop_length, List.append_nil]

/-- C1: for every session and every sequence of edits, the patch produced by
`into_text_edit` (the diff of baseline against current) consists of
replacements that stay within the baseline text, are pairwise disjoint and
sorted ascending by start offset in the baseline, and applying them to the
baseline's rendered text yields exactly the current tree's full rendering. -/
theorem finalize_patch_correct (n : Element) (ctx : Option Chars) (ops : List EditOp) :
    editsBounded 0 (applyOps (AstEditor.new n ctx) ops).original_ast.render.length
        (applyOps (AstEditor.new n ctx) ops).intoTextEdit ∧
    List.Pairwise (fun x y => x.stop ≤ y.start)
        (applyOps (AstEditor.new n ctx) ops).intoTextEdit ∧
    editsChained (applyOps (AstEditor.new n ctx) ops).intoTextEdit ∧
    applyFrom (applyOps (AstEditor.new n ctx) ops).original_ast.render 0
        (applyOps (AstEditor.new n ctx) ops).intoTextEdit
      = (applyOps (AstEditor.new n ctx) ops).ast.render := by
  have hb := diff_bounded 0 (applyOps (AstEditor.new n ctx) ops).original_ast
    (applyOps (AstEditor.new n ctx) ops).ast
  rw [Nat.zero_add] at hb
  rw [AstEditor.intoTextEdit]
  refine ⟨hb.1, ?_, hb.2, diff_apply_closed _ _⟩
  exact chained_pairwise _ hb.2 (fun e he => ((hb.1) e he).2.1)

theorem insertField_after_some (orig f : Element) (ctx : Option Chars) (k : SynKind)
    (cs : List Element) (a j : Nat)
    (hj : firstIdxFrom isComma cs a = some j) :
    (AstEditor.mk orig (.node k cs) ctx).insertField (.after a) f =
      (AstEditor.mk orig (.node k cs) ctx).setAst
        (insertChildren (.node k cs) (.after j)
          [fieldSpace (AstEditor.mk orig (.node k cs) ctx), f, commaTok]) := by
  rw [AstEditor.insertField.eq_def]
  dsimp only [Element.children]
  rw [hj]

theorem insertField_after_none (orig f : Element) (ctx : Option Chars) (k : SynKind)
    (cs : List Element) (a : Nat)
    (hj : firstIdxFrom isComma cs a = none) :
    (AstEditor.mk orig (.node k cs) ctx).insertField (.after a) f =
      (AstEditor.mk orig (.node k cs) ctx).setAst
        (insertChildren (.node k cs) (.after a)
          [commaTok, fieldSpace (AstEditor.mk orig (.node k cs) ctx), f, commaTok]) := by
  rw [AstEditor.insertField.eq_def]
  dsimp only [Element.children]
  rw [hj]

theorem insertField_last_some_some (orig f : Element) (ctx : Option Chars) (k : SynKind)
    (cs : List Element) (i j : Nat)
    (hi : lastIdx isField cs = some i)
    (hj : firstIdxFrom isComma cs i = some j) :
    (AstEditor.mk orig (.node k cs) ctx).insertField .last f =
      (AstEditor.mk orig (.node k cs) ctx).setAst
        (insertChildren (.node k cs) (.after j)
          (if (renderList cs).contains '\n'
            then [fieldSpace (AstEditor.mk orig (.node k cs) ctx), f, commaTok]
            else [fieldSpace (AstEditor.mk orig (.node k cs) ctx), f])) := by
  rw [AstEditor.insertField.eq_def]
  dsimp only [Element.children, render_node]
  rw [hi]
  dsimp only
  rw [hj]
  dsimp only
  simp only [render_node]
  by_cases hm : (renderList cs).contains '\n' = true
  · rw [if_pos hm, if_pos hm]
  · rw [if_neg hm, if_neg hm]
    rfl

theorem insertField_last_some_none (orig f : Element) (ctx : Option Chars) (k : SynKind)
    (cs : List Element) (i : Nat)
    (hi : lastIdx isField cs = some i)
    (hj : firstIdxFrom isComma cs i = none) :
    (AstEditor.mk orig (.node k cs) ctx).insertField .last f =
      (AstEditor.mk orig (.node k cs) ctx).setAst
        (insertChildren (.node k cs) (.after i)
          (commaTok :: (if (renderList cs).contains '\n'
            then [fieldSpace (AstEditor.mk orig (.node k cs) ctx), f, commaTok]
            else [fieldSpace (AstEditor.mk orig (.node k cs) ctx), f]))) := by
  rw [AstEditor.insertField.eq_def]
  dsimp only [Element.children, render_node]
  rw [hi]
  dsimp only
  rw [hj]
  dsimp only
  simp only [render_node]
  by_cases hm : (renderList cs).contains '\n' = true
  · rw [if_pos hm, if_pos hm]
  · rw [if_neg hm, if_neg hm]
    rfl

theorem insertField_last_nofield (orig f : Element) (ctx : Option Chars) (k : SynKind)
    (cs : List Element) (i : Nat)
    (hi : lastIdx isField cs = none)
    (hc : lCurlyIdx cs = some i) :
    (AstEditor.mk orig (.node k cs) ctx).insertField .last f =
      (AstEditor.mk orig (.node k cs) ctx).setAst
        (insertChildren (.node k cs) (.after i)
          (if (renderList cs).contains '\n'
            then [fieldSpace (AstEditor.mk orig (.node k cs) ctx), f, commaTok]
            else [fieldSpace (AstEditor.mk orig (.node k cs) ctx), f])) := by
  rw [AstEditor.insertField.eq_def]
  dsimp only [Element.children, render_node]
  rw [hi]
  dsimp only
  rw [hc]
  dsimp only
  simp only [render_node]
  by_cases hm : (renderList cs).contains '\n' = true
  · rw [if_pos hm, if_pos hm]
  · rw [if_neg hm, if_neg hm]
    rfl

theorem insertField_first_eq (orig f : Element) (ctx : Option Chars) (k : SynKind)
    (cs : List Element) (i : Nat)
    (hc : lCurlyIdx cs = some i) :
    (AstEditor.mk orig (.node k cs) ctx).insertField .first f =
      (AstEditor.mk orig (.node k cs) ctx).setAst
        (insertChildren (.node k cs) (.after i)
          [fieldSpace (AstEditor.mk orig (.node k cs) ctx), f, commaTok]) := by
  rw [AstEditor.insertField.eq_def]
  dsimp only [Element.children]
  rw [hc]

theorem setAst_ok_ast (e : AstEditor) (n : Element) : (e.setAst (.ok n)).ast = n := rfl

theorem insertChildren_after_ok (k : SynKind) (cs : List Element) (i : Nat) (ins : List Element)
    (h : i < cs.length) :
    insertChildren (.node k cs) (.after i) ins =
      .ok (.node k (cs.take (i + 1) ++ ins ++ cs.drop (i + 1))) := by
  rw [insertChildren]
  rw [if_pos h]

theorem insertChildren_before_ok (k : SynKind) (cs : List Element) (i : Nat) (ins : List Element)
    (h : i < cs.length) :
    insertChildren (.node k cs) (.before i) ins =
      .ok (.node k (cs.take i ++ ins ++ cs.drop i)) := by
  rw [insertChildren]
  rw [if_pos h]

theorem fieldSpace_multiline (orig : Element) (k : SynKind) (cs : List Element)
    (ctx : Option Chars) (hm : (renderList cs).contains '\n' = true) :
    fieldSpace (AstEditor.mk orig (.node k cs) ctx) =
      wsTok ('\n' :: (ctx.getD [] ++ [' ', ' ', ' ', ' '])) := by
  rw [fieldSpace]
  simp only [render_node]
  rw [if_pos hm]

theorem fieldSpace_singleline (orig : Element) (k : SynKind) (cs : List Element)
    (ctx : Option Chars) (hm : ¬ (renderList cs).contains '\n' = true) :
    fieldSpace (AstEditor.mk orig (.node k cs) ctx) = singleSpace := by
  rw [fieldSpace]
  simp only [render_node]
  rw [if_neg hm]

/-- Sample syntax fragments used by the concrete scenarios of the spec. -/
def tokLCurly : Element := .token .lCurly ['{']

/-- Closing curly token. -/
def tokRCurly : Element := .token .rCurly ['}']

/-- The record field rendered `a: i32`. -/
def fieldA : Element :=
  .node .recordField
    [.token .ident ['a'], .token .colon [':'], wsTok [' '], .token .ident ['i', '3', '2']]

/-- The record field rendered `b: i32`. -/
def fieldB : Element :=
  .node .recordField
    [.token .ident ['b'], .token .colon [':'], wsTok [' '], .token .ident ['i', '3', '2']]

/-- Children of the field list of `struct S { a: i32 }` (scenario 1). -/
def fieldListS1 : List Element := [tokLCurly, wsTok [' '], fieldA, wsTok [' '], tokRCurly]

/-- Children of the empty field list of `struct S {}` (scenario 3). -/
def fieldListEmpty : List Element := [tokLCurly, tokRCurly]

/-- Children of a multiline field list whose single field `a: i32` lacks a
trailing comma. -/
def fieldListMLnc : List Element :=
  [tokLCurly, wsTok ['\n', ' ', ' ', ' ', ' '], fieldA, wsTok ['\n'], tokRCurly]

/-- C4: on a record field list whose current rendering contains a line break,
`insert_field` inserts the whitespace `"\n" ++ indent ++ "    "`, the field
and a separator comma, anchored after the previous element's separator; and
appending last while the existing last field lacks a trailing comma first
places a synthetic comma for that existing field, before the new
whitespace+field+comma sequence. -/
theorem insert_field_multiline (orig f : Element) (ctx : Option Chars) (k : SynKind)
    (cs : List Element) (a j i : Nat)
    (hm : (renderList cs).contains '\n' = true) :
    (firstIdxFrom isComma cs a = some j → j < cs.length →
      ((AstEditor.mk orig (.node k cs) ctx).insertField (.after a) f).ast =
        .node k (cs.take (j + 1)
          ++ [wsTok ('\n' :: (ctx.getD [] ++ [' ', ' ', ' ', ' '])), f, commaTok]
          ++ cs.drop (j + 1))) ∧
    (lastIdx isField cs = some i → firstIdxFrom isComma cs i = none → i < cs.length →
      ((AstEditor.mk orig (.node k cs) ctx).appendField f).ast =
        .node k (cs.take (i + 1)
          ++ [commaTok, wsTok ('\n' :: (ctx.getD [] ++ [' ', ' ', ' ', ' '])), f, commaTok]
          ++ cs.drop (i + 1))) := by
  constructor
  · intro hj hlt
    rw [insertField_after_some orig f ctx k cs a j hj,
        fieldSpace_multiline orig k cs ctx hm,
        insertChildren_after_ok _ _ _ _ hlt, setAst_ok_ast]
  · intro hi hj hlt
    rw [AstEditor.appendField]
    rw [insertField_last_some_none orig f ctx k cs i hi hj]
    rw [if_pos hm]
    rw [fieldSpace_multiline orig k cs ctx hm]
    rw [insertChildren_after_ok _ _ _ _ hlt, setAst_ok_ast]

/-- Witness for C4: appending `b: i32` to the multiline list
`{\n    a: i32\n}` whose field `a: i32` has no trailing comma first gets a
synthetic comma for `a: i32`, then the indented field and its comma; the
result renders `{\n    a: i32,\n    b: i32,\n}`. -/
theorem insert_field_multiline_witness :
    (renderList fieldListMLnc).contains '\n' = true ∧
    ((AstEditor.mk (.node .recordFieldList fieldListMLnc) (.node .recordFieldList fieldListMLnc)
        none).appendField fieldB).ast =
      .node .recordFieldList (fieldListMLnc.take 3
        ++ [commaTok, wsTok ('\n' :: ((none : Option Chars).getD [] ++ [' ', ' ', ' ', ' '])),
            fieldB, commaTok]
        ++ fieldListMLnc.drop 3) :=
  ⟨by decide,
   (insert_field_multiline (.node .recordFieldList fieldListMLnc)
      fieldB none .recordFieldList fieldListMLnc 0 0 2 (by decide)).2
     (by decide) (by decide) (by decide)⟩

/-- Counterexample to C5 as stated: inserting the first field `a: i32` into
the empty single-line list `struct S {}` renders `struct S { a: i32,}` — the
insert payload's trailing comma is kept (only `Last` pops it) and no space
precedes the closing brace — not `struct S { a: i32 }` as the claim says. -/
theorem insert_first_empty_list_counterexample :
    String.mk (((AstEditor.mk (.node .recordFieldList fieldListEmpty)
        (.node .recordFieldList fieldListEmpty) none).insertField .first fieldA).ast.render)
      = "{ a: i32,}" ∧
    String.mk (((AstEditor.mk (.node .recordFieldList fieldListEmpty)
        (.node .recordFieldList fieldListEmpty) none).insertField .first fieldA).ast.render)
      ≠ "{ a: i32 }" := by
  constructor
  · decide
  · decide

/-- C5 (amended): on a single-line record field list, a last append separates
fields by a single space and omits the trailing separator (a fresh comma for
the previous last field is inserted first when it has none); appending `b:
i32` to `struct S { a: i32 }` yields `struct S { a: i32, b: i32 }`; and
insert-first into the empty `struct S {}` yields `struct S { a: i32,}` (the
insert payload keeps its unconditional trailing comma, and no space is placed
before the closing brace). -/
theorem insert_field_singleline (orig f : Element) (ctx : Option Chars) (k : SynKind)
    (cs : List Element) (i : Nat)
    (hm : ¬ (renderList cs).contains '\n' = true) :
    (lastIdx isField cs = some i → firstIdxFrom isComma cs i = none → i < cs.length →
      ((AstEditor.mk orig (.node k cs) ctx).appendField f).ast =
        .node k (cs.take (i + 1) ++ [commaTok, singleSpace, f] ++ cs.drop (i + 1))) ∧
    String.mk (((AstEditor.mk (.node .recordFieldList fieldListS1)
        (.node .recordFieldList fieldListS1) none).appendField fieldB).ast.render)
      = "struct S { a: i32, b: i32 }".drop 9 ∧
    String.mk (((AstEditor.mk (.node .recordFieldList fieldListEmpty)
        (.node .recordFieldList fieldListEmpty) none).insertField .first fieldA).ast.render)
      = "struct S { a: i32,}".drop 9 := by
  refine ⟨?_, by decide, by decide⟩
  intro hi hj hlt
  rw [AstEditor.appendField]
  rw [insertField_last_some_none orig f ctx k cs i hi hj]
  rw [if_neg hm]
  rw [fieldSpace_singleline orig k cs ctx hm]
  rw [insertChildren_after_ok _ _ _ _ hlt, setAst_ok_ast]

/-- Witness for C5 (amended), discharging the general part's hypotheses on the
single-line list `{ a: i32 }`, whose field has no trailing comma. -/
theorem insert_field_singleline_witness :
    (¬ (renderList fieldListS1).contains '\n' = true) ∧
    ((AstEditor.mk (.node .recordFieldList fieldListS1) (.node .recordFieldList fieldListS1)
        none).appendField fieldB).ast =
      .node .recordFieldList (fieldListS1.take 3 ++ [commaTok, singleSpace, fieldB]
        ++ fieldListS1.drop 3) :=
  ⟨by decide,
   (insert_field_singleline (.node .recordFieldList fieldListS1)
      fieldB none .recordFieldList fieldListS1 2 (by decide)).1
     (by decide) (by decide) (by decide)⟩

theorem replaceChildren_ok (k : SynKind) (cs : List Element) (i j : Nat) (ins : List Element)
    (h1 : i ≤ j) (h2 : j < cs.length) :
    replaceChildren (.node k cs) i j ins =
      .ok (.node k (cs.take i ++ ins ++ cs.drop (j + 1))) := by
  rw [replaceChildren]
  rw [if_pos ⟨h1, h2⟩]

theorem doMakeMultiline_noCurly (orig : Element) (k : SynKind) (cs : List Element)
    (ctx : Option Chars) (h : lCurlyIdx cs = none) :
    (AstEditor.mk orig (.node k cs) ctx).doMakeMultiline =
      AstEditor.mk orig (.node k cs) ctx := by
  rw [AstEditor.doMakeMultiline.eq_def]
  dsimp only [Element.children]
  rw [h]

theorem doMakeMultiline_hasBreak (orig : Element) (k : SynKind) (cs : List Element)
    (ctx : Option Chars) (i : Nat) (t : Chars)
    (hc : lCurlyIdx cs = some i)
    (hs : cs[i + 1]? = some (.token .whitespace t))
    (ht : t.contains '\n' = true) :
    (AstEditor.mk orig (.node k cs) ctx).doMakeMultiline =
      AstEditor.mk orig (.node k cs) ctx := by
  rw [AstEditor.doMakeMultiline.eq_def]
  dsimp only [Element.children]
  rw [hc]
  dsimp only
  rw [hs]
  dsimp only
  rw [if_pos ht]

theorem doMakeMultiline_insert (orig sib : Element) (k : SynKind) (cs : List Element)
    (ctx : Option Chars) (i : Nat)
    (hc : lCurlyIdx cs = some i)
    (hs : cs[i + 1]? = some sib)
    (hw : isWs sib = false) :
    (AstEditor.mk orig (.node k cs) ctx).doMakeMultiline =
      (AstEditor.mk orig (.node k cs) ctx).setAst
        (insertChildren (.node k cs) (.after i) [wsTok ('\n' :: ctx.getD [])]) := by
  rw [AstEditor.doMakeMultiline.eq_def]
  dsimp only [Element.children]
  rw [hc]
  dsimp only
  rw [hs]
  dsimp only
  cases sib with
  | node k2 cs2 => rfl
  | token k2 t =>
      cases k2 <;> first
        | rfl
        | simp [isWs, Element.kind] at hw

theorem doMakeMultiline_replaceWs (orig : Element) (k : SynKind) (cs : List Element)
    (ctx : Option Chars) (i : Nat) (t : Chars)
    (hc : lCurlyIdx cs = some i)
    (hs : cs[i + 1]? = some (.token .whitespace t))
    (ht : ¬ t.contains '\n' = true) :
    (AstEditor.mk orig (.node k cs) ctx).doMakeMultiline =
      (AstEditor.mk orig (.node k cs) ctx).setAst
        (replaceChildren (.node k cs) (i + 1) (i + 1) [wsTok ('\n' :: ctx.getD [])]) := by
  rw [AstEditor.doMakeMultiline.eq_def]
  dsimp only [Element.children]
  rw [hc]
  dsimp only
  rw [hs]
  dsimp only
  rw [if_neg ht]

theorem appendItem_after_last (orig item : Element) (k : SynKind) (cs : List Element)
    (ctx : Option Chars) (i : Nat)
    (hi : lastIdx isImplItem cs = some i) :
    (AstEditor.mk orig (.node k cs) ctx).appendItem item =
      (AstEditor.mk orig (.node k cs) ctx).setAst
        (insertChildren (.node k cs) (.after i)
          [wsTok ('\n' :: (leadingIndentOfChild ctx cs i).getD []), item]) := by
  rw [AstEditor.appendItem.eq_def]
  dsimp only [Element.children]
  rw [hi]

theorem appendItem_no_item (orig item : Element) (k : SynKind) (cs : List Element)
    (ctx : Option Chars) (i : Nat)
    (hni : lastIdx isImplItem cs = none) (hc : lCurlyIdx cs = some i) :
    (AstEditor.mk orig (.node k cs) ctx).appendItem item =
      (AstEditor.mk orig (.node k cs) ctx).setAst
        (insertChildren (.node k cs) (.after i)
          [wsTok ('\n' :: ([' ', ' ', ' ', ' '] ++ ctx.getD [])), item]) := by
  rw [AstEditor.appendItem.eq_def]
  dsimp only [Element.children]
  rw [hni]
  dsimp only
  rw [hc]

theorem appendItems_forces_break (e : AstEditor) (items : List Element)
    (hm : ¬ e.ast.render.contains '\n' = true) :
    e.appendItems items = items.foldl AstEditor.appendItem e.doMakeMultiline := by
  rw [AstEditor.appendItems]
  rw [if_neg hm]

theorem getElem_some_lt (cs : List Element) (n : Nat) (x : Element)
    (h : cs[n]? = some x) : n < cs.length := by
  by_contra hge
  rw [List.getElem?_eq_none (by omega)] at h
  exact Option.noConfusion h

theorem lastIdx_lt_length (p : Element → Bool) :
    (cs : List Element) → (i : Nat) → lastIdx p cs = some i → i < cs.length
  | [], i, h => by
      rw [lastIdx] at h
      exact Option.noConfusion h
  | c :: cs, i, h => by
      rw [lastIdx] at h
      cases hl : lastIdx p cs with
      | some j =>
          rw [hl] at h
          cases h
          have := lastIdx_lt_length p cs j hl
          simp
          omega
      | none =>
          rw [hl] at h
          by_cases hp : p c
          · rw [if_pos hp] at h
            cases h
            simp
          · rw [if_neg hp] at h
            exact Option.noConfusion h

/-- Children of the empty item list of `impl T {}` (scenario 4). -/
def itemListEmpty : List Element := [tokLCurly, tokRCurly]

/-- The impl item rendered `fn f() {}`. -/
def fnF : Element :=
  .node .fnDef [.token .ident ['f', 'n'], wsTok [' '], .token .ident ['f'],
    .token .other ['(', ')'], wsTok [' '], .token .other ['{', '}']]

/-- C6: appending items to a one-line container first forces a line break
right after `{` (no-op when a newline-bearing whitespace already follows `{`,
no-op entirely without `{`); each appended item is preceded by a newline plus
the previous last item's indentation when one exists, else the container's
indentation plus one indent level; `impl T {}` plus `fn f() {}` renders
`impl T {\n    fn f() {}\n}`. -/
theorem append_items_forces_multiline (orig item sib : Element) (ctx : Option Chars)
    (k : SynKind) (cs items : List Element) (i : Nat) (t : Chars) :
    (¬ (renderList cs).contains '\n' = true →
      (AstEditor.mk orig (.node k cs) ctx).appendItems items
        = items.foldl AstEditor.appendItem
            (AstEditor.mk orig (.node k cs) ctx).doMakeMultiline) ∧
    (lCurlyIdx cs = none →
      (AstEditor.mk orig (.node k cs) ctx).doMakeMultiline
        = AstEditor.mk orig (.node k cs) ctx) ∧
    (lCurlyIdx cs = some i → cs[i + 1]? = some (.token .whitespace t) →
      t.contains '\n' = true →
      (AstEditor.mk orig (.node k cs) ctx).doMakeMultiline
        = AstEditor.mk orig (.node k cs) ctx) ∧
    (lCurlyIdx cs = some i → cs[i + 1]? = some sib → isWs sib = false →
      ((AstEditor.mk orig (.node k cs) ctx).doMakeMultiline).ast
        = .node k (cs.take (i + 1) ++ [wsTok ('\n' :: ctx.getD [])] ++ cs.drop (i + 1))) ∧
    (lCurlyIdx cs = some i → cs[i + 1]? = some (.token .whitespace t) →
      ¬ t.contains '\n' = true →
      ((AstEditor.mk orig (.node k cs) ctx).doMakeMultiline).ast
        = .node k (cs.take (i + 1) ++ [wsTok ('\n' :: ctx.getD [])] ++ cs.drop (i + 2))) ∧
    (lastIdx isImplItem cs = some i →
      ((AstEditor.mk orig (.node k cs) ctx).appendItem item).ast
        = .node k (cs.take (i + 1)
            ++ [wsTok ('\n' :: (leadingIndentOfChild ctx cs i).getD []), item]
            ++ cs.drop (i + 1))) ∧
    (lastIdx isImplItem cs = none → lCurlyIdx cs = some i →
      ((AstEditor.mk orig (.node k cs) ctx).appendItem item).ast
        = .node k (cs.take (i + 1)
            ++ [wsTok ('\n' :: ([' ', ' ', ' ', ' '] ++ ctx.getD [])), item]
            ++ cs.drop (i + 1))) ∧
    String.mk (((AstEditor.mk (.node .itemList itemListEmpty) (.node .itemList itemListEmpty)
        none).appendItems [fnF]).ast.render)
      = "impl T \x7b\n    fn f() \x7b\x7d\n\x7d".drop 7 := by
  refine ⟨?_, ?_, ?_, ?_, ?_, ?_, ?_, by decide⟩
  · intro hm
    exact appendItems_forces_break _ items (by simpa [render_node] using hm)
  · intro hc
    exact doMakeMultiline_noCurly orig k cs ctx hc
  · intro hc hs ht
    exact doMakeMultiline_hasBreak orig k cs ctx i t hc hs ht
  · intro hc hs hw
    have hlt : i < cs.length := firstIdx_lt_length _ cs i hc
    rw [doMakeMultiline_insert orig sib k cs ctx i hc hs hw]
    rw [insertChildren_after_ok _ _ _ _ hlt, setAst_ok_ast]
  · intro hc hs ht
    have hlt : i + 1 < cs.length := getElem_some_lt cs (i + 1) _ hs
    rw [doMakeMultiline_replaceWs orig k cs ctx i t hc hs ht]
    rw [replaceChildren_ok _ _ _ _ _ (le_refl _) hlt, setAst_ok_ast]
  · intro hi
    have hlt : i < cs.length := lastIdx_lt_length _ cs i hi
    rw [appendItem_after_last orig item k cs ctx i hi]
    rw [insertChildren_after_ok _ _ _ _ hlt, setAst_ok_ast]
  · intro hni hc
    have hlt : i < cs.length := firstIdx_lt_length _ cs i hc
    rw [appendItem_no_item orig item k cs ctx i hni hc]
    rw [insertChildren_after_ok _ _ _ _ hlt, setAst_ok_ast]

/-- Witness for C6 on scenario 4's empty item list: `{` at index 0 is followed
by the non-whitespace `}`, so a newline whitespace is inserted right after
`{`. -/
theorem append_items_forces_multiline_witness :
    lCurlyIdx itemListEmpty = some 0 ∧
    itemListEmpty[0 + 1]? = some tokRCurly ∧
    isWs tokRCurly = false ∧
    ((AstEditor.mk (.node .itemList itemListEmpty) (.node .itemList itemListEmpty)
        none).doMakeMultiline).ast
      = .node .itemList (itemListEmpty.take (0 + 1)
          ++ [wsTok ('\n' :: (none : Option Chars).getD [])] ++ itemListEmpty.drop (0 + 1)) :=
  ⟨by decide, by decide, by decide,
   (append_items_forces_multiline (.node .itemList itemListEmpty) fnF tokRCurly none
      .itemList itemListEmpty [] 0 []).2.2.2.1 (by decide) (by decide) (by decide)⟩

theorem stripAll_fix (cs : List Element) (h : firstIdx isAttrOrComment cs = none) :
    stripAll cs = cs := by
  rw [stripAll.eq_def]
  split
  · rfl
  next i heq =>
    rw [h] at heq
    exact Option.noConfusion heq

theorem stripAll_step (cs : List Element) (i : Nat)
    (h : firstIdx isAttrOrComment cs = some i) :
    stripAll cs = stripAll (cs.take i ++ cs.drop (stripEnd cs i + 1)) := by
  rw [stripAll.eq_def]
  split
  next heq =>
    rw [h] at heq
    exact Option.noConfusion heq
  next j heq =>
    rw [h] at heq
    cases heq
    rfl

theorem stripAll_no_attrs (cs : List Element) :
    firstIdx isAttrOrComment (stripAll cs) = none := by
  cases h : firstIdx isAttrOrComment cs with
  | none =>
      rw [stripAll_fix cs h]
      exact h
  | some i =>
      rw [stripAll_step cs i h]
      exact stripAll_no_attrs (cs.take i ++ cs.drop (stripEnd cs i + 1))
termination_by cs.length
decreasing_by
  have h1 := firstIdx_lt_length isAttrOrComment cs i h
  have h2 := stripEnd_bounds cs i h1
  simp only [List.length_append, List.length_take, List.length_drop]
  omega

/-- The attribute token `#[foo]`. -/
def attrFoo : Element := .token .attr ['#', '[', 'f', 'o', 'o', ']']

/-- The attribute token `#[bar]`. -/
def attrBar : Element := .token .attr ['#', '[', 'b', 'a', 'r', ']']

/-- The token sequence of `fn f() {}` inside an impl item. -/
def fnTokens : List Element :=
  [.token .ident ['f', 'n'], wsTok [' '], .token .ident ['f'],
   .token .other ['(', ')'], wsTok [' '], .token .other ['{', '}']]

/-- Children of the impl item `#[foo]\n#[bar]\nfn f() {}` (scenario 5). -/
def attrsCs : List Element := attrFoo :: wsTok ['\n'] :: attrBar :: wsTok ['\n'] :: fnTokens

/-- The children after the first strip iteration. -/
def attrsCs1 : List Element := attrBar :: wsTok ['\n'] :: fnTokens

/-- The impl item `#[foo]\n#[bar]\nfn f() {}` as a function definition node. -/
def implItemAttrs : Element := .node .fnDef attrsCs

/-- C7: `strip_attrs_and_docs` repeatedly deletes the first remaining
attribute-or-comment child together with the single immediately following
whitespace token when one is present (the deletion range's end is that
whitespace exactly when one follows), stops when none remain — the result has
no attribute or comment child — and reduces `#[foo]\n#[bar]\nfn f() {}` to
`fn f() {}`. -/
theorem strip_attrs_and_docs_correct (orig : Element) (k : SynKind) (cs : List Element)
    (ctx : Option Chars) (i : Nat) (w : Element) :
    ((AstEditor.mk orig (.node k cs) ctx).stripAttrsAndDocs).ast = .node k (stripAll cs) ∧
    (firstIdx isAttrOrComment cs = some i →
      stripAll cs = stripAll (cs.take i ++ cs.drop (stripEnd cs i + 1))) ∧
    (cs[i + 1]? = some w → isWs w = true → stripEnd cs i = i + 1) ∧
    (cs[i + 1]? = some w → isWs w = false → stripEnd cs i = i) ∧
    (firstIdx isAttrOrComment cs = none → stripAll cs = cs) ∧
    firstIdx isAttrOrComment (stripAll cs) = none ∧
    String.mk (((AstEditor.mk implItemAttrs implItemAttrs none).stripAttrsAndDocs).ast.render)
      = "fn f() {}" := by
  refine ⟨rfl, stripAll_step cs i, ?_, ?_, stripAll_fix cs, stripAll_no_attrs cs, ?_⟩
  · intro hw hws
    rw [stripEnd, hw]
    dsimp only
    rw [if_pos hws]
  · intro hw hws
    rw [stripEnd, hw]
    dsimp only
    rw [if_neg (by rw [hws]; exact Bool.false_ne_true)]
  · have h0 : ((AstEditor.mk implItemAttrs implItemAttrs none).stripAttrsAndDocs).ast
        = .node .fnDef (stripAll attrsCs) := rfl
    rw [h0]
    rw [stripAll_step attrsCs 0 (by decide)]
    rw [show attrsCs.take 0 ++ attrsCs.drop (stripEnd attrsCs 0 + 1) = attrsCs1 from by decide]
    rw [stripAll_step attrsCs1 0 (by decide)]
    rw [show attrsCs1.take 0 ++ attrsCs1.drop (stripEnd attrsCs1 0 + 1) = fnTokens
      from by decide]
    rw [stripAll_fix fnTokens (by decide)]
    decide

/-- Witness for C7: the first strip iteration on
`#[foo]\n#[bar]\nfn f() {}` deletes `#[foo]` at index 0 together with the
following newline. -/
theorem strip_attrs_and_docs_correct_witness :
    firstIdx isAttrOrComment attrsCs = some 0 ∧
    stripAll attrsCs = stripAll (attrsCs.take 0 ++ attrsCs.drop (stripEnd attrsCs 0 + 1)) :=
  ⟨by decide,
   (strip_attrs_and_docs_correct implItemAttrs .fnDef attrsCs none 0 attrFoo).2.1 (by decide)⟩

theorem firstIdx_take_not (p : Element → Bool) :
    (cs : List Element) → (i : Nat) → firstIdx p cs = some i →
    ∀ el ∈ cs.take i, p el = false
  | [], i, h => by
      rw [firstIdx] at h
      exact Option.noConfusion h
  | c :: cs, i, h => by
      rw [firstIdx] at h
      by_cases hp : p c
      · rw [if_pos hp] at h
        cases h
        intro el hel
        exact absurd hel (by simp)
      · rw [if_neg hp] at h
        rcases Option.map_eq_some'.mp h with ⟨j, hj, hji⟩
        subst hji
        intro el hel
        rw [List.take_succ_cons] at hel
        rcases List.mem_cons.mp hel with hel1 | hel2
        · subst hel1
          simp at hp
          exact hp
        · exact firstIdx_take_not p cs j hj el hel2

theorem removeBounds_noColon (orig : Element) (k : SynKind) (cs : List Element)
    (ctx : Option Chars) (h : firstIdx isColon cs = none) :
    (AstEditor.mk orig (.node k cs) ctx).removeBounds = AstEditor.mk orig (.node k cs) ctx := by
  rw [AstEditor.removeBounds.eq_def]
  dsimp only [Element.children]
  rw [h]

theorem removeBounds_colon_bounds (orig : Element) (k : SynKind) (cs : List Element)
    (ctx : Option Chars) (i j : Nat)
    (hi : firstIdx isColon cs = some i) (hj : firstIdx isBoundList cs = some j) :
    (AstEditor.mk orig (.node k cs) ctx).removeBounds =
      (AstEditor.mk orig (.node k cs) ctx).setAst (replaceChildren (.node k cs) i j []) := by
  rw [AstEditor.removeBounds.eq_def]
  dsimp only [Element.children]
  rw [hi]
  dsimp only
  rw [hj]

theorem removeBounds_colon_only (orig : Element) (k : SynKind) (cs : List Element)
    (ctx : Option Chars) (i : Nat)
    (hi : firstIdx isColon cs = some i) (hj : firstIdx isBoundList cs = none) :
    (AstEditor.mk orig (.node k cs) ctx).removeBounds =
      (AstEditor.mk orig (.node k cs) ctx).setAst (replaceChildren (.node k cs) i i []) := by
  rw [AstEditor.removeBounds.eq_def]
  dsimp only [Element.children]
  rw [hi]
  dsimp only
  rw [hj]

/-- The type parameter rendered `T: Clone + Debug` (scenario 6). -/
def typeParamCs : List Element :=
  [.token .ident ['T'], .token .colon [':'], wsTok [' '],
   .node .typeBoundList
     [.token .ident ['C', 'l', 'o', 'n', 'e'], wsTok [' '], .token .other ['+'], wsTok [' '],
      .token .ident ['D', 'e', 'b', 'u', 'g']]]

/-- C8: `remove_bounds` deletes everything from the colon token through the
following bound-list node as one combined splice, so no colon child remains in
the result; a type parameter with no colon token is left unchanged; the type
parameter `T: Clone + Debug` renders `T` after removal. -/
theorem remove_bounds_correct (orig : Element) (k : SynKind) (cs : List Element)
    (ctx : Option Chars) (i j : Nat) :
    (firstIdx isColon cs = some i → firstIdx isBoundList cs = some j → i ≤ j → j < cs.length →
      ((AstEditor.mk orig (.node k cs) ctx).removeBounds).ast
        = .node k (cs.take i ++ cs.drop (j + 1))) ∧
    (firstIdx isColon cs = some i → firstIdx isBoundList cs = some j → i ≤ j → j < cs.length →
      (∀ el ∈ cs.drop (j + 1), isColon el = false) →
      ∀ el ∈ ((AstEditor.mk orig (.node k cs) ctx).removeBounds).ast.children,
        isColon el = false) ∧
    (firstIdx isColon cs = none →
      (AstEditor.mk orig (.node k cs) ctx).removeBounds
        = AstEditor.mk orig (.node k cs) ctx) ∧
    String.mk (((AstEditor.mk (.node .typeParam typeParamCs) (.node .typeParam typeParamCs)
        none).removeBounds).ast.render)
      = "T" := by
  have hmain : ∀ hi : firstIdx isColon cs = some i, ∀ hj : firstIdx isBoundList cs = some j,
      i ≤ j → j < cs.length →
      ((AstEditor.mk orig (.node k cs) ctx).removeBounds).ast
        = .node k (cs.take i ++ cs.drop (j + 1)) := by
    intro hi hj hij hlt
    rw [removeBounds_colon_bounds orig k cs ctx i j hi hj]
    rw [replaceChildren_ok _ _ _ _ _ hij hlt, setAst_ok_ast]
    rw [List.append_nil]
  refine ⟨hmain, ?_, removeBounds_noColon orig k cs ctx, ?_⟩
  · intro hi hj hij hlt hpost
    rw [hmain hi hj hij hlt]
    rw [Element.children]
    intro el hel
    rcases List.mem_append.mp hel with h1 | h2
    · exact firstIdx_take_not isColon cs i hi el h1
    · exact hpost el h2
  · rw [removeBounds_colon_bounds (.node .typeParam typeParamCs) .typeParam typeParamCs none
        1 3 (by decide) (by decide)]
    rw [replaceChildren_ok _ _ _ _ _ (by omega) (by decide), setAst_ok_ast]
    decide

/-- Witness for C8 on scenario 6: colon at index 1, bound list at index 3 of
`T: Clone + Debug`; the splice leaves only the `T` token. -/
theorem remove_bounds_correct_witness :
    firstIdx isColon typeParamCs = some 1 ∧
    firstIdx isBoundList typeParamCs = some 3 ∧
    ((AstEditor.mk (.node .typeParam typeParamCs) (.node .typeParam typeParamCs)
        none).removeBounds).ast
      = .node .typeParam (typeParamCs.take 1 ++ typeParamCs.drop 4) :=
  ⟨by decide, by decide,
   (remove_bounds_correct (.node .typeParam typeParamCs) .typeParam typeParamCs none 1 3).1
     (by decide) (by decide) (by decide) (by decide)⟩

/-- Children of the function definition `fn f();` (declaration without body). -/
def fnDeclCs : List Element :=
  [.token .ident ['f', 'n'], wsTok [' '], .token .ident ['f'],
   .token .other ['(', ')'], .token .semi [';']]

/-- The block `{ 92 }`. -/
def blockB : Element :=
  .node .block [tokLCurly, wsTok [' '], .token .ident ['9', '2'], wsTok [' '], tokRCurly]

/-- C10: `with_body` is pure — it returns a fresh function definition and the
input value is untouched — and: an existing body is replaced in place by `b`;
else a trailing semicolon is replaced by a single space followed by `b`; else
a single space and `b` are appended after the last child. `fn f();` with body
`{ 92 }` renders `fn f() { 92 }`. -/
theorem with_body_correct (k : SynKind) (cs : List Element) (body : Element) (i : Nat) :
    (firstIdx isBlock cs = some i → i < cs.length →
      withBody (.node k cs) body = .node k (cs.take i ++ [body] ++ cs.drop (i + 1))) ∧
    (firstIdx isBlock cs = none → firstIdx isSemi cs = some i → i < cs.length →
      withBody (.node k cs) body
        = .node k (cs.take i ++ [singleSpace, body] ++ cs.drop (i + 1))) ∧
    (firstIdx isBlock cs = none → firstIdx isSemi cs = none →
      withBody (.node k cs) body = .node k (cs ++ [singleSpace, body])) ∧
    String.mk ((withBody (.node .fnDef fnDeclCs) blockB).render) = "fn f() { 92 }" := by
  refine ⟨?_, ?_, ?_, ?_⟩
  · intro hi hlt
    rw [withBody.eq_def]
    dsimp only [Element.children]
    rw [hi]
    dsimp only
    rw [replaceChildren_ok _ _ _ _ _ (le_refl i) hlt]
  · intro hb hi hlt
    rw [withBody.eq_def]
    dsimp only [Element.children]
    rw [hb]
    dsimp only
    rw [hi]
    dsimp only
    rw [replaceChildren_ok _ _ _ _ _ (le_refl i) hlt]
  · intro hb hi
    rw [withBody.eq_def]
    dsimp only [Element.children]
    rw [hb]
    dsimp only
    rw [hi]
    dsimp only
    rfl
  · rw [withBody.eq_def]
    dsimp only [Element.children]
    rw [show firstIdx isBlock fnDeclCs = none from by decide]
    dsimp only
    rw [show firstIdx isSemi fnDeclCs = some 4 from by decide]
    dsimp only
    rw [replaceChildren_ok _ _ _ _ _ (le_refl 4) (by decide)]
    decide

/-- Witness for C10: `fn f();` has no body child, its semicolon sits at index
4, and `with_body` replaces that semicolon by a space and the block. -/
theorem with_body_correct_witness :
    firstIdx isBlock fnDeclCs = none ∧
    firstIdx isSemi fnDeclCs = some 4 ∧
    withBody (.node .fnDef fnDeclCs) blockB
      = .node .fnDef (fnDeclCs.take 4 ++ [singleSpace, blockB] ++ fnDeclCs.drop 5) :=
  ⟨by decide, by decide,
   (with_body_correct .fnDef fnDeclCs blockB 4).2.1 (by decide) (by decide) (by decide)⟩
